import Mathlib

/-!
# Verification of the neural-go feed-forward network

A shallow embedding of the Go package `neural` (files `neural.go` and the
extended lineage file): a two-layer feed-forward network with sigmoid
activation, trained by backpropagation with an (aliased) L2-regularization
pass.  Go `float64` values are modelled as real numbers; Go slices as
`List ℝ`; the in-place mutation of layer state is modelled by explicit
state passing (each operation returns the updated `Layer`/`Network`).

Where the Go code would panic on an out-of-range slice index, the total
model below reads a default value via `List.getD`; all theorems about the
total model carry the shape invariants under which the Go code does not
panic, so the model and the source agree on every input the theorems
quantify over.  A second, `Except`-valued model of `feedforward`
(`feedforwardChecked`) makes the panic behaviour explicit for the
error-handling claims.
-/

open scoped BigOperators

/-- `type Layer struct { Weight [][]float64; Bias []float64; value []float64 }` -/
structure Layer where
  Weight : List (List ℝ)
  Bias : List ℝ
  value : List ℝ

/-- `type Network struct { Hidden *Layer; Output *Layer }`.
The two layers are owned exclusively by the network, so the pointer
indirection is dropped and the layers are stored by value. -/
structure Network where
  Hidden : Layer
  Output : Layer

/-- `1.0 / (1.0 + math.Pow(math.E, -sum))` — the sigmoid applied on line 65. -/
noncomputable def sigmoid (x : ℝ) : ℝ := 1 / (1 + Real.exp (-x))

/-- The inner loop of `feedforward` (lines 62–64): `for j < len(input): sum +=
layer.Weight[i][j] * input[j]`, summing in ascending `j`.  The loop runs over
the indices of `input`; if the weight row is shorter than `input` the Go code
panics (see `dotChecked`), the total model stops instead. -/
noncomputable def dot : List ℝ → List ℝ → ℝ
  | _, [] => 0
  | [], _ :: _ => 0
  | w :: ws, x :: xs => w * x + dot ws xs

/-- The outer loop of `feedforward` (lines 60–66): `for i < len(layer.value):
value[i] = sigmoid(Bias[i] + Σ_j Weight[i][j]*input[j])`.  The recursion is
driven by the `value` list, exactly as the Go loop bound is `len(layer.value)`;
if `Weight` or `Bias` runs out first the Go code panics, the total model stops. -/
noncomputable def ffValues (input : List ℝ) :
    List (List ℝ) → List ℝ → List ℝ → List ℝ
  | row :: rows, b :: bs, _ :: vs => sigmoid (b + dot row input) :: ffValues input rows bs vs
  | _, _, _ => []

/-- `func (layer *Layer) feedforward(input []float64) []float64` (lines 59–68).
The Go method overwrites `layer.value` in place and returns it; the model
returns the updated layer, whose `value` field is the returned slice. -/
noncomputable def feedforward (layer : Layer) (input : List ℝ) : Layer :=
  { layer with value := ffValues input layer.Weight layer.Bias layer.value }

/-- `func (net *Network) Activate(input []float64) (result []float64)`
(lines 70–76): feed `input` through `Hidden`, its activation through `Output`,
and return a fresh copy (`make` + `copy`) of the output activation.  The copy
of a slice has the same entries, so as a list value the result equals
`output.value`; the model also returns the mutated network. -/
noncomputable def Activate (net : Network) (input : List ℝ) : Network × List ℝ :=
  let hidden := feedforward net.Hidden input
  let output := feedforward net.Output hidden.value
  (⟨hidden, output⟩, output.value)

/-- The row loop of `backpropagate` (lines 80–88), one iteration per weight row:
`cost := err[i] * value[i] * (1 - value[i])`; for each `j`,
`residual[j] += cost * weight[j]` reading the pre-update weight (`theta`),
then `weight[j] += rate * cost * input[j]`; finally `Bias[i] += rate * cost`.
Arguments: weight rows, biases, activations, errors, and the residual
accumulator; returns the updated rows, updated biases, and final residual.
When `Bias`/`value`/`err` are shorter than `Weight` the Go code panics; the
total model stops. -/
noncomputable def bpLoop (rate : ℝ) (input : List ℝ) :
    List (List ℝ) → List ℝ → List ℝ → List ℝ → List ℝ →
    List (List ℝ) × List ℝ × List ℝ
  | w :: ws, b :: bs, v :: vs, e :: es, residual =>
      let cost := e * v * (1 - v)
      let residual1 := residual.zipWith (fun r th => r + cost * th) w
      let w1 := w.zipWith (fun th x => th + rate * cost * x) input
      let rest := bpLoop rate input ws bs vs es residual1
      (w1 :: rest.1, (b + rate * cost) :: rest.2.1, rest.2.2)
  | _, _, _, _, residual => ([], [], residual)

/-- `func (layer *Layer) backpropagate(input, err []float64, rate, lambda
float64) (residual []float64)` (lines 78–90).  `lambda` is accepted but never
used, exactly as in the source.  `residual` starts as
`make([]float64, len(layer.Weight[0]))` (Go panics when `Weight` is empty; the
model uses the empty row, giving length 0). -/
noncomputable def backpropagate (layer : Layer) (input err : List ℝ)
    (rate lambda : ℝ) : Layer × List ℝ :=
  let residual0 : List ℝ := List.replicate (layer.Weight.headD []).length 0
  let res := bpLoop rate input layer.Weight layer.Bias layer.value err residual0
  ({ layer with Weight := res.1, Bias := res.2.1 }, res.2.2)

/-- `func (net Network) RegularizationGrads(numInputs int, lambda float64)`
(lines 107–122).  In Go, `theta1Grad = net.Hidden.Weight` copies only the slice
header: the returned gradient matrices ALIAS the live weight storage, and the
in-place scaling `weight[j] = weight[j] * lambdaOverM` therefore scales the
network's own weights.  The model returns the network with scaled weights
together with the scaled matrices (which are, at this point, equal to the
network's weight matrices — the aliasing itself is accounted for at the call
site in `Train`). -/
noncomputable def RegularizationGrads (net : Network) (numInputs : ℕ) (lambda : ℝ) :
    Network × (List (List ℝ) × List (List ℝ)) :=
  let lambdaOverM := lambda / (numInputs : ℝ)
  let theta1Grad := net.Hidden.Weight.map (fun row => row.map (· * lambdaOverM))
  let theta2Grad := net.Output.Weight.map (fun row => row.map (· * lambdaOverM))
  (⟨{ net.Hidden with Weight := theta1Grad }, { net.Output with Weight := theta2Grad }⟩,
   (theta1Grad, theta2Grad))

/-- `func (net *Network) SubtractGradients(theta1Grad, theta2Grad [][]float64)`
(lines 124–136): `weight[i][j] -= thetaGrad[i][j]` elementwise on both layers. -/
noncomputable def SubtractGradients (net : Network)
    (theta1Grad theta2Grad : List (List ℝ)) : Network :=
  ⟨{ net.Hidden with
      Weight := net.Hidden.Weight.zipWith (fun w g => w.zipWith (· - ·) g) theta1Grad },
   { net.Output with
      Weight := net.Output.Weight.zipWith (fun w g => w.zipWith (· - ·) g) theta2Grad }⟩

/-- `func (net *Network) Train(input, expected []float64, rate, lambda float64)`
(lines 92–105).  Crucial aliasing fact of the source: `theta1Grad`/`theta2Grad`
returned by `RegularizationGrads` are the very arrays `net.Hidden.Weight` /
`net.Output.Weight` (slice headers share the backing storage).  By the time
`SubtractGradients` reads `thetaGrad[i][j]`, the two `backpropagate` calls have
already updated those same arrays in place, so the values subtracted are the
CURRENT (post-backpropagation) weights, not the values at the time of the
`RegularizationGrads` call.  The model therefore passes the post-backpropagation
weight matrices to `SubtractGradients`. -/
noncomputable def Train (net : Network) (input expected : List ℝ)
    (rate lambda : ℝ) : Network :=
  let m := input.length
  let net1 := (RegularizationGrads net m lambda).1
  let err := (List.range net1.Output.value.length).map
    (fun i => expected.getD i 0 - net1.Output.value.getD i 0)
  let bpOut := backpropagate net1.Output net1.Hidden.value err rate lambda
  let bpHid := backpropagate net1.Hidden input bpOut.2 rate lambda
  let net2 : Network := ⟨bpHid.1, bpOut.1⟩
  SubtractGradients net2 net2.Hidden.Weight net2.Output.Weight

/-- `func MeanSquaredError(result, expected []float64) float64` (lines 160–166):
`Σ_i (expected[i]-result[i])^2 / len(result)`, the loop running over the
indices of `result` (Go panics if `expected` is shorter). -/
noncomputable def MeanSquaredError (result expected : List ℝ) : ℝ :=
  (((List.range result.length).map
    (fun i => (expected.getD i 0 - result.getD i 0) ^ 2)).sum) / (result.length : ℝ)

/-- `func (net *Network) RegularizedCost(result, expected []float64, lambda
float64) float64` (lines 168–184): mean squared error plus
`(lambda / (2·len(result)))` times the sum of squares of all weights of both
layers. -/
noncomputable def RegularizedCost (net : Network) (result expected : List ℝ)
    (lambda : ℝ) : ℝ :=
  let cost := MeanSquaredError result expected
  let regularization :=
    (net.Hidden.Weight.map (fun ws => (ws.map (· ^ 2)).sum)).sum +
    (net.Output.Weight.map (fun ws => (ws.map (· ^ 2)).sum)).sum
  cost + regularization * (lambda / ((2 * result.length : ℕ) : ℝ))

/-- `func (layer *Layer) initialize()` (lines 31–33):
`layer.value = make([]float64, len(layer.Weight))`, a zero vector with one
entry per node. -/
def Layer.initValue (l : Layer) : Layer :=
  ⟨l.Weight, l.Bias, List.replicate l.Weight.length 0⟩

/-- `func LoadNetwork(r io.Reader) *Network` (lines 151–158), abstracted over
the outcome of `json.NewDecoder(r).Decode(net)`.  `Decode` fills the fields of
a fresh zero `Network` (both layer pointers start `nil`) and may return an
error; crucially, `encoding/json` can populate fields even when it reports an
error (an `UnmarshalTypeError` continues decoding the remaining fields), and
on other failures (syntax error, empty stream) it leaves pointers `nil`.  The
decoder's outcome is therefore modelled as the pair of the error it returned
(if any) and the field state it left behind.  The source DISCARDS the error
(line 154: `dec.Decode(net)` with the result ignored), so the model takes the
error as an unused argument: the behaviour depends only on the populated
fields.  `LoadNetwork` then dereferences `net.Hidden` and `net.Output` to
reinitialize their activation vectors: if either pointer is still `nil`, the
program crashes with a nil-pointer-dereference runtime panic, modelled as
`Except.error`.  No other validation of the decoded record happens. -/
def LoadNetwork (_decodeErr : Option String)
    (decoded : Option Layer × Option Layer) : Except String Network :=
  match decoded with
  | (some h, some o) => .ok ⟨h.initValue, o.initValue⟩
  | _ => .error "runtime error: invalid memory address or nil pointer dereference"

/-- The inner sum of `feedforward` with the Go panic made explicit: iterating
`j` over `input`, reading `row[j]` is an index-out-of-range runtime panic once
`row` is exhausted. -/
noncomputable def dotChecked : List ℝ → List ℝ → Except String ℝ
  | _, [] => .ok 0
  | [], _ :: _ => .error "index out of range"
  | w :: ws, x :: xs =>
      match dotChecked ws xs with
      | .ok s => .ok (w * x + s)
      | .error e => .error e

/-- The outer loop of `feedforward` with panics made explicit: the loop runs
over `layer.value`; reading `Weight[i]` or `Bias[i]` past their length is an
index-out-of-range panic. -/
noncomputable def ffValuesChecked (input : List ℝ) :
    List (List ℝ) → List ℝ → List ℝ → Except String (List ℝ)
  | row :: rows, b :: bs, _ :: vs =>
      match dotChecked row input with
      | .ok s =>
          match ffValuesChecked input rows bs vs with
          | .ok rest => .ok (sigmoid (b + s) :: rest)
          | .error e => .error e
      | .error e => .error e
  | _, _, [] => .ok []
  | _, _, _ :: _ => .error "index out of range"

/-- `feedforward` (lines 59–68) with Go's runtime panics modelled as
`Except.error`: on inputs where `feedforwardChecked` returns `.ok`, the Go
method runs without panicking and produces those activation values. -/
noncomputable def feedforwardChecked (layer : Layer) (input : List ℝ) :
    Except String (List ℝ) :=
  ffValuesChecked input layer.Weight layer.Bias layer.value

namespace NeuralGo

/-! Embedding of the forward pass of the second lineage file
`src/neural/neural.go` (its `feedforward`, lines 59–68, and `Activate`,
lines 70–76).  That file's two functions are translated here independently,
so that the two lineages can be compared. -/

/-- `neural.go` lines 62–64: the inner weighted sum of `feedforward`. -/
noncomputable def dot : List ℝ → List ℝ → ℝ
  | _, [] => 0
  | [], _ :: _ => 0
  | w :: ws, x :: xs => w * x + NeuralGo.dot ws xs

/-- `neural.go` lines 60–66: the node loop of `feedforward`. -/
noncomputable def ffValues (input : List ℝ) :
    List (List ℝ) → List ℝ → List ℝ → List ℝ
  | row :: rows, b :: bs, _ :: vs =>
      sigmoid (b + NeuralGo.dot row input) :: NeuralGo.ffValues input rows bs vs
  | _, _, _ => []

/-- `neural.go` lines 59–68: `func (layer *Layer) feedforward`. -/
noncomputable def feedforward (layer : Layer) (input : List ℝ) : Layer :=
  { layer with value := NeuralGo.ffValues input layer.Weight layer.Bias layer.value }

/-- `neural.go` lines 70–76: `func (net *Network) Activate`. -/
noncomputable def Activate (net : Network) (input : List ℝ) : Network × List ℝ :=
  let hidden := NeuralGo.feedforward net.Hidden input
  let output := NeuralGo.feedforward net.Output hidden.value
  (⟨hidden, output⟩, output.value)

end NeuralGo

/-! ## List helper lemmas -/

theorem getD_zipWith (f : ℝ → ℝ → ℝ) (l1 l2 : List ℝ) (j : ℕ)
    (h1 : j < l1.length) (h2 : j < l2.length) :
    (List.zipWith f l1 l2).getD j 0 = f (l1.getD j 0) (l2.getD j 0) := by
  induction l1 generalizing l2 j with
  | nil => simp at h1
  | cons a l ih =>
    cases l2 with
    | nil => simp at h2
    | cons b l' =>
      cases j with
      | zero => simp
      | succ j =>
        simp only [List.zipWith_cons_cons, List.getD_cons_succ]
        exact ih l' j (by simpa using h1) (by simpa using h2)

theorem zipWith_self_eq_map {α β : Type} (f : α → α → β) (l : List α) :
    List.zipWith f l l = l.map (fun a => f a a) := by
  induction l with
  | nil => rfl
  | cons a l ih => simp [List.zipWith_cons_cons, ih]

theorem zipWith_sub_self (l : List ℝ) :
    List.zipWith (· - ·) l l = List.replicate l.length 0 := by
  rw [zipWith_self_eq_map]
  induction l with
  | nil => rfl
  | cons a l ih => simp [List.replicate_succ, ih]

theorem length_zipWith_of_eq (f : ℝ → ℝ → ℝ) (l1 l2 : List ℝ)
    (h : l1.length = l2.length) : (List.zipWith f l1 l2).length = l1.length := by
  simp [List.length_zipWith, h]

theorem getD_replicate_zero (n j : ℕ) (h : j < n) :
    (List.replicate n (0:ℝ)).getD j 0 = 0 := by
  simp [List.getD_eq_getElem?_getD, List.getElem?_replicate, h]

/-! ## Sigmoid lemmas -/

theorem sigmoid_pos (x : ℝ) : 0 < sigmoid x := by
  unfold sigmoid
  positivity

theorem sigmoid_lt_one (x : ℝ) : sigmoid x < 1 := by
  unfold sigmoid
  rw [div_lt_one (by positivity)]
  linarith [Real.exp_pos (-x)]

theorem sigmoid_mul_one_sub_ne_zero (x : ℝ) (h0 : 0 < x) (h1 : x < 1) :
    x * (1 - x) ≠ 0 :=
  mul_ne_zero (ne_of_gt h0) (by linarith)

/-! ## `dot` and `ffValues` lemmas -/

theorem dot_eq_sum (w x : List ℝ) (h : x.length ≤ w.length) :
    dot w x = ∑ j in Finset.range x.length, w.getD j 0 * x.getD j 0 := by
  induction x generalizing w with
  | nil => simp [dot]
  | cons a l ih =>
    cases w with
    | nil => simp at h
    | cons b w' =>
      rw [dot, List.length_cons, Finset.sum_range_succ' (fun j => ((b :: w').getD j 0 * (a :: l).getD j 0))]
      simp only [List.getD_cons_succ, List.getD_cons_zero]
      rw [ih w' (by simpa using h)]
      ring

theorem ffValues_length (input : List ℝ) (rows : List (List ℝ)) (bs vs : List ℝ)
    (hb : vs.length ≤ bs.length) (hw : vs.length ≤ rows.length) :
    (ffValues input rows bs vs).length = vs.length := by
  induction vs generalizing rows bs with
  | nil => cases rows <;> cases bs <;> simp [ffValues]
  | cons v vs ih =>
    cases rows with
    | nil => simp at hw
    | cons row rows =>
      cases bs with
      | nil => simp at hb
      | cons b bs =>
        simp only [ffValues, List.length_cons]
        rw [ih rows bs (by simpa using hb) (by simpa using hw)]

theorem ffValues_congr (input : List ℝ) (rows : List (List ℝ)) (bs vs vs' : List ℝ)
    (h : vs.length = vs'.length) :
    ffValues input rows bs vs = ffValues input rows bs vs' := by
  induction vs generalizing rows bs vs' with
  | nil =>
    cases vs' with
    | nil => rfl
    | cons _ _ => simp at h
  | cons v vs ih =>
    cases vs' with
    | nil => simp at h
    | cons v' vs' =>
      cases rows with
      | nil => rfl
      | cons row rows =>
        cases bs with
        | nil => rfl
        | cons b bs =>
          simp only [ffValues]
          rw [ih rows bs vs' (by simpa using h)]

theorem ffValues_getD (input : List ℝ) (rows : List (List ℝ)) (bs vs : List ℝ)
    (i : ℕ) (hi : i < vs.length)
    (hb : vs.length ≤ bs.length) (hw : vs.length ≤ rows.length) :
    (ffValues input rows bs vs).getD i 0 =
      sigmoid (bs.getD i 0 + dot (rows.getD i []) input) := by
  induction vs generalizing rows bs i with
  | nil => simp at hi
  | cons v vs ih =>
    cases rows with
    | nil => simp at hw
    | cons row rows =>
      cases bs with
      | nil => simp at hb
      | cons b bs =>
        cases i with
        | zero => simp [ffValues]
        | succ i =>
          simp only [ffValues, List.getD_cons_succ]
          exact ih rows bs i (by simpa using hi) (by simpa using hb) (by simpa using hw)

theorem ffValues_mem_sigmoid (input : List ℝ) (rows : List (List ℝ)) (bs vs : List ℝ)
    (x : ℝ) (hx : x ∈ ffValues input rows bs vs) : ∃ s, x = sigmoid s := by
  induction vs generalizing rows bs with
  | nil =>
    cases rows <;> cases bs <;> simp [ffValues] at hx
  | cons v vs ih =>
    cases rows with
    | nil => simp [ffValues] at hx
    | cons row rows =>
      cases bs with
      | nil => simp [ffValues] at hx
      | cons b bs =>
        simp only [ffValues, List.mem_cons] at hx
        rcases hx with h | h
        · exact ⟨b + dot row input, h⟩
        · exact ih rows bs h

/-! ## `bpLoop` lemmas -/

/-- The per-node local delta of `backpropagate`:
`cost := err[i] * layer.value[i] * (1 - layer.value[i])` (line 81). -/
noncomputable def bpCost (vs es : List ℝ) (i : ℕ) : ℝ :=
  es.getD i 0 * vs.getD i 0 * (1 - vs.getD i 0)

theorem bpLoop_fst_length (rate : ℝ) (input : List ℝ) (ws : List (List ℝ))
    (bs vs es residual : List ℝ)
    (hb : bs.length = ws.length) (hv : vs.length = ws.length)
    (he : es.length = ws.length) :
    (bpLoop rate input ws bs vs es residual).1.length = ws.length := by
  induction ws generalizing bs vs es residual with
  | nil => cases bs <;> cases vs <;> cases es <;> simp [bpLoop]
  | cons w ws ih =>
    cases bs with
    | nil => simp at hb
    | cons b bs =>
      cases vs with
      | nil => simp at hv
      | cons v vs =>
        cases es with
        | nil => simp at he
        | cons e es =>
          simp only [bpLoop, List.length_cons]
          rw [ih bs vs es _ (by simpa using hb) (by simpa using hv) (by simpa using he)]

theorem bpLoop_weight_getD (rate : ℝ) (input : List ℝ) (ws : List (List ℝ))
    (bs vs es residual : List ℝ)
    (hb : bs.length = ws.length) (hv : vs.length = ws.length)
    (he : es.length = ws.length)
    (hrow : ∀ row ∈ ws, row.length = input.length)
    (i j : ℕ) (hi : i < ws.length) (hj : j < input.length) :
    ((bpLoop rate input ws bs vs es residual).1.getD i []).getD j 0 =
      (ws.getD i []).getD j 0 + rate * bpCost vs es i * input.getD j 0 := by
  induction ws generalizing bs vs es residual i with
  | nil => simp at hi
  | cons w ws ih =>
    cases bs with
    | nil => simp at hb
    | cons b bs =>
      cases vs with
      | nil => simp at hv
      | cons v vs =>
        cases es with
        | nil => simp at he
        | cons e es =>
          cases i with
          | zero =>
            simp only [bpLoop, List.getD_cons_zero]
            have hw : j < w.length := by
              rw [hrow w (List.mem_cons_self w ws)]; exact hj
            rw [getD_zipWith _ w input j hw hj]
            simp [bpCost]
          | succ i =>
            simp only [bpLoop, List.getD_cons_succ]
            have : bpCost (v :: vs) (e :: es) (i + 1) = bpCost vs es i := by
              simp [bpCost]
            rw [this]
            exact ih bs vs es _ (by simpa using hb) (by simpa using hv)
              (by simpa using he)
              (fun row hr => hrow row (List.mem_cons_of_mem w hr))
              i (by simpa using hi)

theorem bpLoop_bias_getD (rate : ℝ) (input : List ℝ) (ws : List (List ℝ))
    (bs vs es residual : List ℝ)
    (hb : bs.length = ws.length) (hv : vs.length = ws.length)
    (he : es.length = ws.length)
    (i : ℕ) (hi : i < ws.length) :
    (bpLoop rate input ws bs vs es residual).2.1.getD i 0 =
      bs.getD i 0 + rate * bpCost vs es i := by
  induction ws generalizing bs vs es residual i with
  | nil => simp at hi
  | cons w ws ih =>
    cases bs with
    | nil => simp at hb
    | cons b bs =>
      cases vs with
      | nil => simp at hv
      | cons v vs =>
        cases es with
        | nil => simp at he
        | cons e es =>
          cases i with
          | zero => simp [bpLoop, bpCost]
          | succ i =>
            simp only [bpLoop, List.getD_cons_succ]
            have : bpCost (v :: vs) (e :: es) (i + 1) = bpCost vs es i := by
              simp [bpCost]
            rw [this]
            exact ih bs vs es _ (by simpa using hb) (by simpa using hv)
              (by simpa using he) i (by simpa using hi)

theorem bpLoop_residual_getD (rate : ℝ) (input : List ℝ) (ws : List (List ℝ))
    (bs vs es residual : List ℝ)
    (hb : bs.length = ws.length) (hv : vs.length = ws.length)
    (he : es.length = ws.length)
    (hrow : ∀ row ∈ ws, residual.length ≤ row.length)
    (j : ℕ) (hj : j < residual.length) :
    (bpLoop rate input ws bs vs es residual).2.2.getD j 0 =
      residual.getD j 0 +
        ∑ i in Finset.range ws.length, bpCost vs es i * (ws.getD i []).getD j 0 := by
  induction ws generalizing bs vs es residual with
  | nil => cases bs <;> cases vs <;> cases es <;> simp [bpLoop]
  | cons w ws ih =>
    cases bs with
    | nil => simp at hb
    | cons b bs =>
      cases vs with
      | nil => simp at hv
      | cons v vs =>
        cases es with
        | nil => simp at he
        | cons e es =>
          simp only [bpLoop]
          have hwlen : residual.length ≤ w.length := hrow w (List.mem_cons_self w ws)
          have hlen1 : (residual.zipWith (fun r th => r + (e * v * (1 - v)) * th) w).length
              = residual.length := by
            simp [List.length_zipWith]; omega
          rw [ih bs vs es _ (by simpa using hb) (by simpa using hv) (by simpa using he)
            (fun row hr => by rw [hlen1]; exact hrow row (List.mem_cons_of_mem w hr))
            (by rw [hlen1]; exact hj)]
          rw [getD_zipWith _ residual w j hj (lt_of_lt_of_le hj hwlen)]
          rw [List.length_cons,
            Finset.sum_range_succ' (fun i => bpCost (v :: vs) (e :: es) i *
              (((w :: ws).getD i []).getD j 0))]
          simp only [List.getD_cons_succ, List.getD_cons_zero, bpCost]
          ring

theorem bpLoop_residual_length (rate : ℝ) (input : List ℝ) (ws : List (List ℝ))
    (bs vs es residual : List ℝ)
    (hrow : ∀ row ∈ ws, residual.length ≤ row.length) :
    (bpLoop rate input ws bs vs es residual).2.2.length = residual.length := by
  induction ws generalizing bs vs es residual with
  | nil => cases bs <;> cases vs <;> cases es <;> simp [bpLoop]
  | cons w ws ih =>
    cases bs with
    | nil => simp [bpLoop]
    | cons b bs =>
      cases vs with
      | nil => simp [bpLoop]
      | cons v vs =>
        cases es with
        | nil => simp [bpLoop]
        | cons e es =>
          simp only [bpLoop]
          have hwlen : residual.length ≤ w.length := hrow w (List.mem_cons_self w ws)
          have hlen1 : (residual.zipWith (fun r th => r + (e * v * (1 - v)) * th) w).length
              = residual.length := by
            simp [List.length_zipWith]; omega
          rw [ih bs vs es _
            (fun row hr => by rw [hlen1]; exact hrow row (List.mem_cons_of_mem w hr)), hlen1]

theorem bpLoop_fst_row_length (rate : ℝ) (input : List ℝ) (ws : List (List ℝ))
    (bs vs es residual : List ℝ)
    (hb : bs.length = ws.length) (hv : vs.length = ws.length)
    (he : es.length = ws.length)
    (hrow : ∀ row ∈ ws, row.length = input.length) :
    ∀ row ∈ (bpLoop rate input ws bs vs es residual).1, row.length = input.length := by
  induction ws generalizing bs vs es residual with
  | nil =>
    cases bs <;> cases vs <;> cases es <;> simp [bpLoop]
  | cons w ws ih =>
    cases bs with
    | nil => simp at hb
    | cons b bs =>
      cases vs with
      | nil => simp at hv
      | cons v vs =>
        cases es with
        | nil => simp at he
        | cons e es =>
          simp only [bpLoop, List.mem_cons]
          rintro row (rfl | hr)
          · have := hrow w (List.mem_cons_self w ws)
            simp [List.length_zipWith]; omega
          · exact ih bs vs es _ (by simpa using hb) (by simpa using hv)
              (by simpa using he)
              (fun r h => hrow r (List.mem_cons_of_mem w h)) row hr

/-! ## Helper lemmas about `Train` and the other top-level operations -/

theorem getD_mem {α : Type} (l : List α) (i : ℕ) (d : α) (h : i < l.length) :
    l.getD i d ∈ l := by
  rw [List.getD_eq_getElem?_getD, List.getElem?_eq_getElem h]
  exact List.getElem_mem h

theorem getD_range_map (f : ℕ → ℝ) (n i : ℕ) (h : i < n) :
    ((List.range n).map f).getD i 0 = f i := by
  rw [List.getD_eq_getElem?_getD, List.getElem?_map, List.getElem?_range h]
  rfl

/-- `SubtractGradients`, fed its own live weight matrices (which is what the
aliasing in `Train` amounts to), zeroes every weight entry of both layers. -/
theorem subtractGradients_self_zero (n : Network) :
    (∀ row ∈ (SubtractGradients n n.Hidden.Weight n.Output.Weight).Hidden.Weight,
      ∀ x ∈ row, x = 0) ∧
    (∀ row ∈ (SubtractGradients n n.Hidden.Weight n.Output.Weight).Output.Weight,
      ∀ x ∈ row, x = 0) := by
  constructor <;>
  · intro row hr x hx
    simp only [SubtractGradients] at hr
    rw [zipWith_self_eq_map] at hr
    rcases List.mem_map.mp hr with ⟨w, _, rfl⟩
    rw [zipWith_sub_self] at hx
    exact List.eq_of_mem_replicate hx

/-- Because the gradient matrices subtracted at the end of `Train` alias the
live weight arrays, every weight entry of both layers is zero after `Train`. -/
theorem train_weights_zero (net : Network) (input expected : List ℝ)
    (rate lambda : ℝ) :
    (∀ row ∈ (Train net input expected rate lambda).Hidden.Weight,
      ∀ x ∈ row, x = 0) ∧
    (∀ row ∈ (Train net input expected rate lambda).Output.Weight,
      ∀ x ∈ row, x = 0) := by
  unfold Train
  exact subtractGradients_self_zero _

/-- The output-layer bias after `Train`: `SubtractGradients` touches only
weights, so the bias is exactly the backpropagation update computed from the
output error `expected[i] - output.value[i]`. -/
theorem train_output_bias_getD (net : Network) (input expected : List ℝ)
    (rate lambda : ℝ)
    (hb : net.Output.Bias.length = net.Output.Weight.length)
    (hv : net.Output.value.length = net.Output.Weight.length)
    (i : ℕ) (hi : i < net.Output.Weight.length) :
    (Train net input expected rate lambda).Output.Bias.getD i 0 =
      net.Output.Bias.getD i 0 + rate *
        ((expected.getD i 0 - net.Output.value.getD i 0) * net.Output.value.getD i 0 *
          (1 - net.Output.value.getD i 0)) := by
  simp only [Train, SubtractGradients, backpropagate, RegularizationGrads]
  rw [bpLoop_bias_getD _ _ _ _ _ _ _
    (by simpa using hb) (by simpa using hv) (by simp [hv]) i (by simpa using hi)]
  have hcost : bpCost net.Output.value
      ((List.range net.Output.value.length).map
        (fun j => expected.getD j 0 - net.Output.value.getD j 0)) i =
      (expected.getD i 0 - net.Output.value.getD i 0) * net.Output.value.getD i 0 *
        (1 - net.Output.value.getD i 0) := by
    unfold bpCost
    rw [getD_range_map _ _ i (by omega)]
  rw [hcost]

/-! ## Equivalence of the two lineage forward passes -/

theorem neuralGo_dot_eq (w x : List ℝ) : NeuralGo.dot w x = dot w x := by
  induction x generalizing w with
  | nil => cases w <;> rfl
  | cons a l ih =>
    cases w with
    | nil => rfl
    | cons b w' => simp only [NeuralGo.dot, dot, ih]

theorem neuralGo_ffValues_eq (input : List ℝ) (rows : List (List ℝ)) (bs vs : List ℝ) :
    NeuralGo.ffValues input rows bs vs = ffValues input rows bs vs := by
  induction vs generalizing rows bs with
  | nil => cases rows <;> cases bs <;> rfl
  | cons v vs ih =>
    cases rows with
    | nil => rfl
    | cons row rows =>
      cases bs with
      | nil => rfl
      | cons b bs =>
        simp only [NeuralGo.ffValues, ffValues, neuralGo_dot_eq, ih]

theorem neuralGo_feedforward_eq (layer : Layer) (input : List ℝ) :
    NeuralGo.feedforward layer input = feedforward layer input := by
  simp only [NeuralGo.feedforward, feedforward, neuralGo_ffValues_eq]

/-! ## Claim theorems -/

/-- C2: after any single call to `Train` — for any lambda, input, and rate —
every weight entry in both the hidden and the output layer equals exactly
zero, because `RegularizationGrads` scales the live weight matrices in place
and returns aliases to them, and `SubtractGradients` then subtracts each
weight array from itself.  (Proved for all inputs, in particular all positive
input lengths.) -/
theorem train_zeroes_all_weights (net : Network) (input expected : List ℝ)
    (rate lambda : ℝ) :
    (∀ row ∈ (Train net input expected rate lambda).Hidden.Weight,
      ∀ x ∈ row, x = 0) ∧
    (∀ row ∈ (Train net input expected rate lambda).Output.Weight,
      ∀ x ∈ row, x = 0) :=
  train_weights_zero net input expected rate lambda

/-- C9: for every network and every pair of vectors `r` and `e`,
`RegularizedCost net r e 0 = MeanSquaredError r e` — zero regularization
strength degenerates to plain mean squared error regardless of the network's
current weights. -/
theorem regularizedCost_zero_lambda (net : Network) (r e : List ℝ) :
    RegularizedCost net r e 0 = MeanSquaredError r e := by
  simp [RegularizedCost]

/-- C10: the forward pass of the two lineage versions is equivalent: for every
weight/bias state and every input, `feedforward` and `Activate` as translated
from `src/neural/neural.go` compute exactly the same results as the ones
translated from `src/unnamed/part_000`. -/
theorem lineage_forward_equivalence :
    (∀ (layer : Layer) (input : List ℝ),
      NeuralGo.feedforward layer input = feedforward layer input) ∧
    (∀ (net : Network) (input : List ℝ),
      NeuralGo.Activate net input = Activate net input) := by
  refine ⟨neuralGo_feedforward_eq, fun net input => ?_⟩
  simp only [NeuralGo.Activate, Activate, neuralGo_feedforward_eq]

/-- The zero value of a decoded `Layer` record: all fields absent/empty. -/
def emptyLayer : Layer := ⟨[], [], []⟩

/-- C5 counterexample: a corrupt, incomplete persisted record — the decoder
reported a type-mismatch error (which `encoding/json` returns while still
populating the layer fields it could decode), and the decoded weight matrices
are empty — is accepted by `LoadNetwork` without any failure: the error is
discarded, the activation vectors are reinitialized on the empty weight
matrices, and a partially-initialized network is returned, instead of failing
with a `MalformedState` error. -/
theorem loadNetwork_accepts_empty_record :
    LoadNetwork (some "json: cannot unmarshal value into Go struct field")
      (some emptyLayer, some emptyLayer) = .ok ⟨emptyLayer, emptyLayer⟩ := rfl

/-- C5 amended: `LoadNetwork` performs no validation and discards the decode
error entirely, so its behaviour depends only on which layer fields the
decoder populated — never on whether the decode succeeded.  Whenever both
layer records are present — even when the decoder reported an error, and even
with absent or empty weight matrices — it reinitializes the activation
vectors and returns the possibly partially-initialized network with no
error; only when a layer pointer is left `nil` (e.g. a syntax-level corrupt
stream or a missing layer record) does it abort, and then with a
nil-pointer-dereference runtime panic, not a `MalformedState` error. -/
theorem loadNetwork_no_validation :
    (∀ (err : Option String) (h o : Layer),
      LoadNetwork err (some h, some o) = .ok ⟨h.initValue, o.initValue⟩) ∧
    (∀ (err : Option String) (o : Option Layer),
      LoadNetwork err (none, o) =
        .error "runtime error: invalid memory address or nil pointer dereference") ∧
    (∀ (err : Option String) (h : Layer),
      LoadNetwork err (some h, none) =
        .error "runtime error: invalid memory address or nil pointer dereference") ∧
    (∀ (e1 e2 : Option String) (d : Option Layer × Option Layer),
      LoadNetwork e1 d = LoadNetwork e2 d) := by
  refine ⟨fun err h o => rfl, fun err o => ?_, fun err h => rfl, fun e1 e2 d => rfl⟩
  cases o <;> rfl

theorem dotChecked_ok (w x : List ℝ) (h : x.length ≤ w.length) :
    dotChecked w x = .ok (dot w x) := by
  induction x generalizing w with
  | nil => cases w <;> rfl
  | cons a l ih =>
    cases w with
    | nil => simp at h
    | cons b w' =>
      simp only [dotChecked, dot, ih w' (by simpa using h)]

theorem dotChecked_err (w x : List ℝ) (h : w.length < x.length) :
    dotChecked w x = .error "index out of range" := by
  induction w generalizing x with
  | nil =>
    cases x with
    | nil => simp at h
    | cons a l => rfl
  | cons b w' ih =>
    cases x with
    | nil => simp at h
    | cons a l =>
      simp only [dotChecked, ih l (by simpa using h)]

theorem ffValuesChecked_ok (input : List ℝ) (rows : List (List ℝ)) (bs vs : List ℝ)
    (hb : vs.length ≤ bs.length) (hw : vs.length ≤ rows.length)
    (hrow : ∀ row ∈ rows, input.length ≤ row.length) :
    ffValuesChecked input rows bs vs = .ok (ffValues input rows bs vs) := by
  induction vs generalizing rows bs with
  | nil => cases rows <;> cases bs <;> rfl
  | cons v vs ih =>
    cases rows with
    | nil => simp at hw
    | cons row rows =>
      cases bs with
      | nil => simp at hb
      | cons b bs =>
        simp only [ffValuesChecked, ffValues,
          dotChecked_ok row input (hrow row (List.mem_cons_self row rows)),
          ih rows bs (by simpa using hb) (by simpa using hw)
            (fun r h => hrow r (List.mem_cons_of_mem row h))]

/-- C4 counterexample: `feedforward` on the one-node layer with weight row
`[1, 2]` (input width 2), fed the too-short input `[3]`, does NOT fail: it
silently truncates, using only the first weight, and returns the activation
`sigmoid(5 + 1·3) = sigmoid 8` — there is no shape-mismatch error. -/
theorem feedforward_silent_truncation_counterexample :
    feedforwardChecked ⟨[[1, 2]], [5], [0]⟩ [3] = .ok [sigmoid 8] ∧
    ([(3:ℝ)].length ≠ [(1:ℝ), 2].length) := by
  constructor
  · show ffValuesChecked [3] [[1, 2]] [5] [0] = _
    simp only [ffValuesChecked, dotChecked]
    norm_num
  · simp

/-- C4 amended: `feedforward` performs no shape validation.  For a layer of
uniform input width `w` with at least one node: if the input is no longer
than `w` it silently proceeds (truncating the use of each weight row to the
input's length) and produces activation values with no error, and only if the
input is strictly longer than `w` does it abort — with an index-out-of-range
runtime panic, not a dedicated shape-mismatch error. -/
theorem feedforward_no_shape_validation (layer : Layer) (input : List ℝ) (w : ℕ)
    (hb : layer.Bias.length = layer.Weight.length)
    (hv : layer.value.length = layer.Weight.length)
    (hrow : ∀ row ∈ layer.Weight, row.length = w)
    (hpos : 0 < layer.Weight.length) :
    (input.length ≤ w →
      feedforwardChecked layer input = .ok (feedforward layer input).value) ∧
    (w < input.length →
      feedforwardChecked layer input = .error "index out of range") := by
  constructor
  · intro hle
    unfold feedforwardChecked feedforward
    exact ffValuesChecked_ok input layer.Weight layer.Bias layer.value
      (le_of_eq (hv.trans hb.symm)) (le_of_eq hv)
      (fun row hr => (hrow row hr) ▸ hle)
  · intro hgt
    unfold feedforwardChecked
    rcases List.exists_cons_of_ne_nil (List.ne_nil_of_length_pos hpos) with ⟨row, rows, hW⟩
    rcases List.exists_cons_of_ne_nil
      (List.ne_nil_of_length_pos (show 0 < layer.Bias.length by omega)) with ⟨b, bs, hB⟩
    rcases List.exists_cons_of_ne_nil
      (List.ne_nil_of_length_pos (show 0 < layer.value.length by omega)) with ⟨v, vs, hV⟩
    rw [hW, hB, hV]
    have hlen : row.length < input.length := by
      rw [hrow row (hW ▸ List.mem_cons_self row rows)]; exact hgt
    simp only [ffValuesChecked, dotChecked_err row input hlen]

/-- The one-node layer `Weight=[[1,2]], Bias=[5], value=[0]` used to
exercise `feedforward`'s missing shape validation. -/
def ffLayer : Layer := ⟨[[1, 2]], [5], [0]⟩

/-- C4 amended, witness: at the concrete layer of input width 2 and the
too-long input `[9, 9, 9]`, the feedforward aborts with the
index-out-of-range panic. -/
theorem feedforward_no_shape_validation_witness :
    (0:ℕ) < ffLayer.Weight.length ∧
    feedforwardChecked ffLayer [9, 9, 9] = .error "index out of range" :=
  ⟨by simp [ffLayer],
   (feedforward_no_shape_validation ffLayer [9, 9, 9] 2 (by simp [ffLayer])
      (by simp [ffLayer]) (by simp [ffLayer]) (by simp [ffLayer])).2 (by simp)⟩

/-- C3: `backpropagate(input, err, rate)` — for a layer of consistent shape —
returns a residual of length equal to the layer's input count with
`residual[j] = Σ_i cost_i * weights[i][j]` computed from the pre-update
weights, where `cost_i = err_i * activation_i * (1 - activation_i)`, and
updates `weights[i][j] += rate * cost_i * input[j]` and
`bias[i] += rate * cost_i`. -/
theorem backpropagate_correct (layer : Layer) (input err : List ℝ)
    (rate lambda : ℝ)
    (hb : layer.Bias.length = layer.Weight.length)
    (hv : layer.value.length = layer.Weight.length)
    (he : err.length = layer.Weight.length)
    (hrow : ∀ row ∈ layer.Weight, row.length = input.length)
    (hne : layer.Weight ≠ []) :
    ((backpropagate layer input err rate lambda).2.length = input.length) ∧
    (∀ j, j < input.length →
      (backpropagate layer input err rate lambda).2.getD j 0 =
        ∑ i in Finset.range layer.Weight.length,
          (err.getD i 0 * layer.value.getD i 0 * (1 - layer.value.getD i 0)) *
            ((layer.Weight.getD i []).getD j 0)) ∧
    (∀ i j, i < layer.Weight.length → j < input.length →
      ((backpropagate layer input err rate lambda).1.Weight.getD i []).getD j 0 =
        (layer.Weight.getD i []).getD j 0 +
          rate * (err.getD i 0 * layer.value.getD i 0 * (1 - layer.value.getD i 0)) *
            input.getD j 0) ∧
    (∀ i, i < layer.Weight.length →
      (backpropagate layer input err rate lambda).1.Bias.getD i 0 =
        layer.Bias.getD i 0 +
          rate * (err.getD i 0 * layer.value.getD i 0 * (1 - layer.value.getD i 0))) := by
  have hhead : (layer.Weight.headD []).length = input.length := by
    rcases List.exists_cons_of_ne_nil hne with ⟨r, rs, hW⟩
    rw [hW, List.headD_cons]
    exact hrow r (hW ▸ List.mem_cons_self r rs)
  have hres0len : (List.replicate (layer.Weight.headD []).length (0:ℝ)).length
      = input.length := by rw [List.length_replicate, hhead]
  have hrow' : ∀ row ∈ layer.Weight,
      (List.replicate (layer.Weight.headD []).length (0:ℝ)).length ≤ row.length :=
    fun row hr => by rw [hres0len, hrow row hr]
  refine ⟨?_, ?_, ?_, ?_⟩
  · simp only [backpropagate]
    rw [bpLoop_residual_length _ _ _ _ _ _ _ hrow', hres0len]
  · intro j hj
    simp only [backpropagate]
    rw [bpLoop_residual_getD _ _ _ _ _ _ _ hb hv he hrow' j
      (by rw [hres0len]; exact hj)]
    rw [getD_replicate_zero _ j (by rw [hhead]; exact hj), zero_add]
    exact Finset.sum_congr rfl (fun i _ => by simp [bpCost])
  · intro i j hi hj
    simp only [backpropagate]
    rw [bpLoop_weight_getD _ _ _ _ _ _ _ hb hv he hrow i j hi hj]
    simp [bpCost]
  · intro i hi
    simp only [backpropagate]
    rw [bpLoop_bias_getD _ _ _ _ _ _ _ hb hv he i hi]
    simp [bpCost]

/-- The one-node layer `Weight=[[2]], Bias=[3], value=[1/2]` used as the
concrete backpropagation example. -/
noncomputable def bpLayer : Layer := ⟨[[2]], [3], [1/2]⟩

/-- C3 witness: the backpropagation equations instantiated at the concrete
one-node layer, input `[1]`, error `[1]`, rate `1`. -/
theorem backpropagate_correct_witness :
    bpLayer.Weight ≠ [] ∧
    (((backpropagate bpLayer ([1] : List ℝ) ([1] : List ℝ) 1 0).2.length
        = ([1] : List ℝ).length) ∧
    (∀ j, j < ([1] : List ℝ).length →
      (backpropagate bpLayer ([1] : List ℝ) ([1] : List ℝ) 1 0).2.getD j 0 =
        ∑ i in Finset.range bpLayer.Weight.length,
          (([1] : List ℝ).getD i 0 * bpLayer.value.getD i 0 *
              (1 - bpLayer.value.getD i 0)) *
            ((bpLayer.Weight.getD i []).getD j 0)) ∧
    (∀ i j, i < bpLayer.Weight.length → j < ([1] : List ℝ).length →
      ((backpropagate bpLayer ([1] : List ℝ) ([1] : List ℝ) 1 0).1.Weight.getD i []).getD j 0 =
        (bpLayer.Weight.getD i []).getD j 0 +
          1 * (([1] : List ℝ).getD i 0 * bpLayer.value.getD i 0 *
              (1 - bpLayer.value.getD i 0)) *
            ([1] : List ℝ).getD j 0) ∧
    (∀ i, i < bpLayer.Weight.length →
      (backpropagate bpLayer ([1] : List ℝ) ([1] : List ℝ) 1 0).1.Bias.getD i 0 =
        bpLayer.Bias.getD i 0 +
          1 * (([1] : List ℝ).getD i 0 * bpLayer.value.getD i 0 *
              (1 - bpLayer.value.getD i 0)))) :=
  ⟨by simp [bpLayer],
   backpropagate_correct bpLayer [1] [1] 1 0 (by simp [bpLayer]) (by simp [bpLayer])
     (by simp [bpLayer]) (by simp [bpLayer]) (by simp [bpLayer])⟩

/-- C6: for a well-shaped network, `Activate input` is the composition
`output.feedforward(hidden.feedforward(input))`, where each node of each
layer computes `sigmoid(bias[i] + Σ_j weights[i][j] * input[j])`; the vector
returned (the source builds it with `make` + `copy`, a fresh buffer) equals
the output layer's activation vector. -/
theorem activate_composition (net : Network) (input : List ℝ)
    (hhb : net.Hidden.Bias.length = net.Hidden.Weight.length)
    (hhv : net.Hidden.value.length = net.Hidden.Weight.length)
    (hob : net.Output.Bias.length = net.Output.Weight.length)
    (hov : net.Output.value.length = net.Output.Weight.length)
    (hhrow : ∀ row ∈ net.Hidden.Weight, row.length = input.length)
    (horow : ∀ row ∈ net.Output.Weight, row.length = net.Hidden.value.length) :
    ((Activate net input).2 =
      (feedforward net.Output (feedforward net.Hidden input).value).value) ∧
    (∀ i, i < net.Hidden.value.length →
      (feedforward net.Hidden input).value.getD i 0 =
        sigmoid (net.Hidden.Bias.getD i 0 +
          ∑ j in Finset.range input.length,
            (net.Hidden.Weight.getD i []).getD j 0 * input.getD j 0)) ∧
    (∀ i, i < net.Output.value.length →
      (Activate net input).2.getD i 0 =
        sigmoid (net.Output.Bias.getD i 0 +
          ∑ j in Finset.range net.Hidden.value.length,
            (net.Output.Weight.getD i []).getD j 0 *
              (feedforward net.Hidden input).value.getD j 0)) := by
  have hfh : (feedforward net.Hidden input).value =
      ffValues input net.Hidden.Weight net.Hidden.Bias net.Hidden.value := rfl
  have hact : (Activate net input).2 =
      ffValues (ffValues input net.Hidden.Weight net.Hidden.Bias net.Hidden.value)
        net.Output.Weight net.Output.Bias net.Output.value := rfl
  have hOutLen :
      (ffValues input net.Hidden.Weight net.Hidden.Bias net.Hidden.value).length =
        net.Hidden.value.length :=
    ffValues_length _ _ _ _ (le_of_eq (hhv.trans hhb.symm)) (le_of_eq hhv)
  refine ⟨rfl, ?_, ?_⟩
  · intro i hi
    rw [hfh, ffValues_getD input _ _ _ i hi (le_of_eq (hhv.trans hhb.symm))
      (le_of_eq hhv)]
    have hrmem := getD_mem net.Hidden.Weight i [] (hhv ▸ hi)
    rw [dot_eq_sum (net.Hidden.Weight.getD i []) input
      (le_of_eq (hhrow _ hrmem).symm)]
  · intro i hi
    rw [hact, hfh, ffValues_getD _ _ _ _ i hi (le_of_eq (hov.trans hob.symm))
      (le_of_eq hov)]
    have hrmem := getD_mem net.Output.Weight i [] (hov ▸ hi)
    rw [dot_eq_sum (net.Output.Weight.getD i []) _
      (by rw [hOutLen, horow _ hrmem])]
    rw [hOutLen]

/-- The concrete 1-input/1-hidden/1-output network with hidden weight 1 and
output weight 2, zero biases. -/
def netA : Network := ⟨⟨[[1]], [0], [0]⟩, ⟨[[2]], [0], [0]⟩⟩

/-- C6 witness: the composition and per-node sigmoid formulas instantiated at
the concrete network `netA` and input `[1]`. -/
theorem activate_composition_witness :
    netA.Hidden.Bias.length = netA.Hidden.Weight.length ∧
    (((Activate netA ([1] : List ℝ)).2 =
      (feedforward netA.Output (feedforward netA.Hidden ([1] : List ℝ)).value).value) ∧
    (∀ i, i < netA.Hidden.value.length →
      (feedforward netA.Hidden ([1] : List ℝ)).value.getD i 0 =
        sigmoid (netA.Hidden.Bias.getD i 0 +
          ∑ j in Finset.range ([1] : List ℝ).length,
            (netA.Hidden.Weight.getD i []).getD j 0 * ([1] : List ℝ).getD j 0)) ∧
    (∀ i, i < netA.Output.value.length →
      (Activate netA ([1] : List ℝ)).2.getD i 0 =
        sigmoid (netA.Output.Bias.getD i 0 +
          ∑ j in Finset.range netA.Hidden.value.length,
            (netA.Output.Weight.getD i []).getD j 0 *
              (feedforward netA.Hidden ([1] : List ℝ)).value.getD j 0))) :=
  ⟨by simp [netA],
   activate_composition netA [1] (by simp [netA]) (by simp [netA]) (by simp [netA])
     (by simp [netA]) (by simp [netA]) (by simp [netA])⟩

/-- C7: for a well-shaped network, every element of the vector returned by
`Activate` lies strictly between 0 and 1 (the open sigmoid range), and
activating twice with the same input and unchanged weights yields identical
output (the second call also leaves the network state fixed). -/
theorem activate_range_deterministic (net : Network) (input : List ℝ)
    (hhb : net.Hidden.Bias.length = net.Hidden.Weight.length)
    (hhv : net.Hidden.value.length = net.Hidden.Weight.length)
    (hob : net.Output.Bias.length = net.Output.Weight.length)
    (hov : net.Output.value.length = net.Output.Weight.length) :
    (∀ x ∈ (Activate net input).2, 0 < x ∧ x < 1) ∧
    Activate (Activate net input).1 input = Activate net input := by
  constructor
  · intro x hx
    rcases ffValues_mem_sigmoid _ _ _ _ x hx with ⟨s, rfl⟩
    exact ⟨sigmoid_pos s, sigmoid_lt_one s⟩
  · have hv1 : ffValues input net.Hidden.Weight net.Hidden.Bias
        (ffValues input net.Hidden.Weight net.Hidden.Bias net.Hidden.value) =
        ffValues input net.Hidden.Weight net.Hidden.Bias net.Hidden.value :=
      ffValues_congr _ _ _ _ _
        (ffValues_length _ _ _ _ (le_of_eq (hhv.trans hhb.symm)) (le_of_eq hhv))
    have ho1 : ffValues
        (ffValues input net.Hidden.Weight net.Hidden.Bias net.Hidden.value)
        net.Output.Weight net.Output.Bias
        (ffValues (ffValues input net.Hidden.Weight net.Hidden.Bias net.Hidden.value)
          net.Output.Weight net.Output.Bias net.Output.value) =
        ffValues (ffValues input net.Hidden.Weight net.Hidden.Bias net.Hidden.value)
          net.Output.Weight net.Output.Bias net.Output.value :=
      ffValues_congr _ _ _ _ _
        (ffValues_length _ _ _ _ (le_of_eq (hov.trans hob.symm)) (le_of_eq hov))
    simp only [Activate, feedforward]
    rw [hv1, ho1]

/-- The concrete 1-1-1 network with unit weights and unit biases. -/
def netB : Network := ⟨⟨[[1]], [1], [0]⟩, ⟨[[1]], [1], [0]⟩⟩

/-- C7 witness: the sigmoid range and determinism of `Activate` instantiated
at the concrete network `netB` and input `[1]`. -/
theorem activate_range_deterministic_witness :
    netB.Hidden.Bias.length = netB.Hidden.Weight.length ∧
    ((∀ x ∈ (Activate netB ([1] : List ℝ)).2, 0 < x ∧ x < 1) ∧
      Activate (Activate netB ([1] : List ℝ)).1 ([1] : List ℝ) =
        Activate netB ([1] : List ℝ)) :=
  ⟨by simp [netB],
   activate_range_deterministic netB [1] (by simp [netB]) (by simp [netB])
     (by simp [netB]) (by simp [netB])⟩

/-- C8 amended: after one `Train` call — immediately after an `Activate`, so
the output activations lie in the open sigmoid range — with a nonzero
learning rate and a not-identically-zero error vector, at least one bias in
the output layer changes; the hidden layer is also guaranteed a change
whenever at least one of its weight entries is nonzero (it becomes zero).
If every hidden weight entry is zero the hidden layer can remain entirely
unchanged, so the original per-layer claim fails there. -/
theorem train_nontrivial_update (net : Network) (input expected : List ℝ)
    (rate lambda : ℝ)
    (hob : net.Output.Bias.length = net.Output.Weight.length)
    (hov : net.Output.value.length = net.Output.Weight.length)
    (hrate : rate ≠ 0)
    (hrange : ∀ v ∈ net.Output.value, 0 < v ∧ v < 1)
    (herr : ∃ i, i < net.Output.Weight.length ∧
      expected.getD i 0 ≠ net.Output.value.getD i 0) :
    (Train net input expected rate lambda).Output.Bias ≠ net.Output.Bias ∧
    ((∃ i, i < net.Hidden.Weight.length ∧
        ∃ j, j < (net.Hidden.Weight.getD i []).length ∧
          (net.Hidden.Weight.getD i []).getD j 0 ≠ 0) →
      (Train net input expected rate lambda).Hidden.Weight ≠ net.Hidden.Weight) := by
  constructor
  · rcases herr with ⟨i, hi, hne⟩
    intro heq
    have h1 := train_output_bias_getD net input expected rate lambda hob hov i hi
    rw [heq] at h1
    have h2 : rate * ((expected.getD i 0 - net.Output.value.getD i 0) *
        net.Output.value.getD i 0 * (1 - net.Output.value.getD i 0)) = 0 := by
      linarith
    have hvmem := getD_mem net.Output.value i 0 (show i < net.Output.value.length by omega)
    rcases hrange _ hvmem with ⟨hv0, hv1⟩
    have hprod : (expected.getD i 0 - net.Output.value.getD i 0) *
        net.Output.value.getD i 0 * (1 - net.Output.value.getD i 0) ≠ 0 := by
      apply mul_ne_zero (mul_ne_zero (sub_ne_zero.mpr hne) (ne_of_gt hv0))
      intro h
      linarith
    exact (mul_ne_zero hrate hprod) h2
  · rintro ⟨i, hi, j, hj, hne⟩ heq
    rw [← heq] at hi hj hne
    exact hne ((train_weights_zero net input expected rate lambda).1 _
      (getD_mem _ i [] hi) _ (getD_mem _ j 0 hj))

/-- The concrete 1-1-1 network with unit weights, zero biases, and in-range
activation state (as left by a previous `Activate`). -/
noncomputable def netW : Network := ⟨⟨[[1]], [0], [1/2]⟩, ⟨[[1]], [0], [1/2]⟩⟩

/-- C8 amended, witness: at the concrete network `netW` (nonzero hidden
weight), rate 1 and expected `[1]`, both guaranteed changes occur. -/
theorem train_nontrivial_update_witness :
    (1:ℝ) ≠ 0 ∧
    ((Train netW ([1] : List ℝ) ([1] : List ℝ) 1 0).Output.Bias ≠ netW.Output.Bias ∧
    ((∃ i, i < netW.Hidden.Weight.length ∧
        ∃ j, j < (netW.Hidden.Weight.getD i []).length ∧
          (netW.Hidden.Weight.getD i []).getD j 0 ≠ 0) →
      (Train netW ([1] : List ℝ) ([1] : List ℝ) 1 0).Hidden.Weight ≠
        netW.Hidden.Weight)) :=
  ⟨by norm_num,
   train_nontrivial_update netW [1] [1] 1 0 (by simp [netW]) (by simp [netW])
     (by norm_num) (by norm_num [netW])
     ⟨0, by simp [netW], by norm_num [netW]⟩⟩

/-- The all-zero-weight, zero-bias 1-1-1 network. -/
def c8Net : Network := ⟨⟨[[0]], [0], [0]⟩, ⟨[[0]], [0], [0]⟩⟩

/-- C8 counterexample: on the network whose weights are all zero, after a
proper `Activate([1])`, a `Train([1], [1], 1, 0)` call with learning rate 1
and output error `1 - sigmoid(0) = 1/2 ≠ 0` leaves the hidden layer's weights
AND bias completely unchanged (the backpropagated residual is zero because
every output weight is zero), refuting "at least one weight or bias value in
each of the two layers changes". -/
theorem train_hidden_unchanged_counterexample :
    (Train ((Activate c8Net [1]).1) [1] [1] 1 0).Hidden =
      ((Activate c8Net [1]).1).Hidden ∧
    (1 : ℝ) ≠ 0 ∧
    (1 : ℝ) - (Activate c8Net [1]).2.getD 0 0 ≠ 0 := by
  have hact : Activate c8Net [1] =
      (⟨⟨[[0]], [0], [1/2]⟩, ⟨[[0]], [0], [1/2]⟩⟩, [1/2]) := by
    simp only [Activate, feedforward, ffValues, dot, c8Net, sigmoid]
    norm_num [Real.exp_zero]
  rw [hact]
  refine ⟨?_, by norm_num, by norm_num⟩
  simp only [Train, RegularizationGrads, SubtractGradients, backpropagate, bpLoop]
  norm_num

/-- The concrete 1-1-1 network used to exhibit the regularization
order-of-operations defect: hidden `Weight=[[1]], Bias=[-1]`, output
`Weight=[[1]], Bias=[-1/2]`, so that `Activate [1]` produces rational
activations (`sigmoid 0 = 1/2`). -/
noncomputable def c1Net : Network := ⟨⟨[[1]], [-1], [0]⟩, ⟨[[1]], [-1/2], [0]⟩⟩

/-- C1: violated by the code (the spec's design notes flag the aliasing as a
latent defect).  With learning rate 0 and `lambda = 1/2`, `m = 1`, the spec's
five ordered steps prescribe final weight = backpropagation-updated value
(unchanged, since rate = 0) minus `lambda/m` times the start-of-train value,
i.e. `1 - (1/2)·1 = 1/2 ≠ 0` — but the code zeroes every weight, because the
regularization "gradients" alias the live weight arrays. -/
theorem train_regularization_aliasing_bug :
    ((Train ((Activate c1Net [1]).1) [1] [0] 0 (1/2)).Hidden.Weight = [[0]] ∧
     (Train ((Activate c1Net [1]).1) [1] [0] 0 (1/2)).Output.Weight = [[0]]) ∧
    ((1 : ℝ) - (1/2) / 1 * 1 ≠ 0) := by
  have hact : Activate c1Net [1] =
      (⟨⟨[[1]], [-1], [1/2]⟩, ⟨[[1]], [-1/2], [1/2]⟩⟩, [1/2]) := by
    simp only [Activate, feedforward, ffValues, dot, c1Net, sigmoid]
    norm_num [Real.exp_zero]
  rw [hact]
  refine ⟨?_, by norm_num⟩
  simp only [Train, RegularizationGrads, SubtractGradients, backpropagate, bpLoop]
  norm_num
